import Mathlib

/-!
Verification of the easycli process-supervision core: the template expander
(`src/process/template.ts`), the process manager (`src/process/manager.ts`)
and the PID registry (`src/process/pid-store.ts`), shallowly embedded over
`List Char` strings, an explicit association-list file store, and an explicit
manager state with a step relation.
-/

namespace EasyCli

/-- Strings are modelled as lists of characters. -/
abbrev Str := List Char

/-- Coerce a Lean string literal to the `List Char` model. -/
def strOf (s : String) : Str := s.data

/-!
## String.prototype.replaceAll

JavaScript `s.replaceAll(pat, rep)` with a plain-string pattern replaces the
non-overlapping occurrences of `pat` left to right (the `$`-escape forms in
the replacement string are not used by this repository's call sites and are
not modelled).  `repGo` scans the string; after a match it emits `rep` once
and skips the remaining `pat.length - 1` matched characters via the counter.
-/

/-- One left-to-right scan: `k` counts characters still to skip after a match. -/
def repGo (pat rep : Str) : Nat → Str → Str
  | _, [] => []
  | Nat.succ k, _ :: rest => repGo pat rep k rest
  | 0, c :: rest =>
    if pat ≠ [] ∧ pat <+: (c :: rest) then
      rep ++ repGo pat rep (pat.length - 1) rest
    else
      c :: repGo pat rep 0 rest

/-- JS `s.replaceAll(pat, rep)` for plain-string `pat` and `rep`. -/
def replaceAll (s pat rep : Str) : Str := repGo pat rep 0 s

/-!
## Splitting, trimming, decimal rendering
-/

/-- JS `s.split(sep)` for a single-character separator: `"".split(",") = [""]`. -/
def splitChar (sep : Char) : Str → List Str
  | [] => [[]]
  | c :: rest =>
    if c = sep then
      [] :: splitChar sep rest
    else
      match splitChar sep rest with
      | [] => [[c]]
      | g :: gs => (c :: g) :: gs

/-- JS `s.trim()`: strip whitespace from both ends. -/
def trim (s : Str) : Str :=
  ((s.dropWhile Char.isWhitespace).reverse.dropWhile Char.isWhitespace).reverse

/-- The decimal digit character for `d % 10`-like values. -/
def digitChar (d : Nat) : Char :=
  if d = 0 then '0' else if d = 1 then '1' else if d = 2 then '2'
  else if d = 3 then '3' else if d = 4 then '4' else if d = 5 then '5'
  else if d = 6 then '6' else if d = 7 then '7' else if d = 8 then '8'
  else '9'

/-- Decimal digits of `n`, fuel-indexed so that it is structurally recursive. -/
def natDigitsAux : Nat → Nat → Str
  | 0, _ => []
  | Nat.succ f, n =>
    if n < 10 then [digitChar n]
    else natDigitsAux f (n / 10) ++ [digitChar (n % 10)]

/-- Decimal rendering of `n`, as produced by the template literal `` `${n}` ``. -/
def natDigits (n : Nat) : Str := natDigitsAux (n + 1) n

/-- The positional placeholder `$i`. -/
def placeholder (i : Nat) : Str := '$' :: natDigits i

/-!
## TemplateExpander (src/process/template.ts)
-/

/-- An item entry from the configuration: explicit name plus the value string. -/
structure ItemEntry where
  name : Str
  value : Str
deriving DecidableEq

/-- The expanded command produced by the template expander. -/
structure ProcessItem where
  name : Str
  args : List Str
  fullCmd : Str
deriving DecidableEq

/--
Source `TemplateExpander.expandNamedParams`: for each `(key, value)` of the params
record in iteration order, `result = result.replaceAll('$' + key, value)`.
-/
def expandNamedParams (template : Str) (params : List (Str × Str)) : Str :=
  params.foldl (fun acc kv => replaceAll acc ('$' :: kv.1) kv.2) template

/--
The positional loop of `TemplateExpander.expand`:
`for (let i = args.length - 1; i >= 0; i--) fullCmd = fullCmd.replaceAll('$'+(i+1), args[i])`.
`posLoop args n s` performs the passes for indices `n, n-1, …, 1`.
-/
def posLoop (args : List Str) : Nat → Str → Str
  | 0, s => s
  | Nat.succ n, s => posLoop args n (replaceAll s (placeholder (n + 1)) (args.getD n []))

/--
Source `TemplateExpander.expand(template, item, index, params)`: split `item.value` on
commas, trim each segment, substitute `$N … $1` highest index first, then
substitute named params.  The `index` parameter is accepted and unused, as in
the source (the name always comes from `item.name`).
-/
def expand (template : Str) (item : ItemEntry) (_index : Nat)
    (params : List (Str × Str)) : ProcessItem :=
  let args := (splitChar ',' item.value).map trim
  { name := item.name
    args := args
    fullCmd := expandNamedParams (posLoop args args.length template) params }

/-!
## Shared data
-/

/-- The restart policy attached to a group (`'yes' | 'no' | 'unless-stopped'`). -/
inductive RestartPolicy where
  | yes
  | no
  | unlessStopped
deriving DecidableEq

/-!
## PidStore (src/process/pid-store.ts)

The on-disk registry is modelled as an association list from file name to the
`PidEntry` the file holds (JSON serialisation round-trips these fields, so a
file written by `writePid` is modelled as holding the entry itself).  The
constant per-user directory is common to every file name and is elided.  OS
liveness (`process.kill(pid, 0)`) is an external probe, modelled as a
function parameter `alive`; `Date.now()` is the parameter `now`.
-/

/-- A registry entry: the JSON fields of one PID file. -/
structure PidEntry where
  pid : Nat
  groupName : Str
  itemName : Str
  startTime : Int
  restartPolicy : RestartPolicy
  fullCmd : Str
deriving DecidableEq

/-- The PID directory: file name to parsed file content. -/
abbrev PidDir := List (Str × PidEntry)

/-- Overwrite-or-create at a key, preserving existing position (file-system write). -/
def setFile : PidDir → Str → PidEntry → PidDir
  | [], k, v => [(k, v)]
  | f :: rest, k, v =>
    if f.1 = k then (k, v) :: rest else f :: setFile rest k v

/-- Source `PidStore.getPidFilePath`: `` `${groupName}_${itemName}.pid` ``. -/
def getPidFilePath (groupName itemName : Str) : Str :=
  groupName ++ '_' :: (itemName ++ strOf ".pid")

/-- Source `PidStore.writePid`: write (or overwrite) the file for the entry's pair. -/
def writePid (dir : PidDir) (entry : PidEntry) : PidDir :=
  setFile dir (getPidFilePath entry.groupName entry.itemName) entry

/-- Source `PidStore.readPidsByGroup`: entries of files named `` `${groupName}_…` `` ending `.pid`. -/
def readPidsByGroup (dir : PidDir) (groupName : Str) : List PidEntry :=
  (dir.filter fun f =>
    (groupName ++ ['_']).isPrefixOf f.1 && (strOf ".pid").isSuffixOf f.1).map (·.2)

/-- Source `PidStore.readAllPids`: entries of all files ending `.pid`. -/
def readAllPids (dir : PidDir) : List PidEntry :=
  (dir.filter fun f => (strOf ".pid").isSuffixOf f.1).map (·.2)

/-- Source `PidStore.deletePid`: remove the file for the pair (absent file is not an error). -/
def deletePid (dir : PidDir) (groupName itemName : Str) : PidDir :=
  dir.filter fun f => f.1 ≠ getPidFilePath groupName itemName

/-- Source `PidStore.isPidEntryValid`: the PID is alive and `startTime > now - 5*60*1000`. -/
def isPidEntryValid (alive : Nat → Bool) (now : Int) (e : PidEntry) : Bool :=
  alive e.pid && decide (e.startTime > now - 5 * 60 * 1000)

/--
Source `PidStore.cleanupStalePids`: snapshot all entries, delete the file of every
entry failing `isPidEntryValid`, and return the removed entries.
-/
def cleanupStalePids (alive : Nat → Bool) (now : Int) (dir : PidDir) :
    List PidEntry × PidDir :=
  let stale := (readAllPids dir).filter fun e => !(isPidEntryValid alive now e)
  (stale, stale.foldl (fun d e => deletePid d e.groupName e.itemName) dir)

/-!
## ProcessManager (src/process/manager.ts)

The manager is modelled as an explicit state.  Child processes are abstracted
to numbered handles; `spawnLog` records each `spawnProcess` call (one OS
process is created per entry).  The `setTimeout(…, 1000)` scheduled by
`handleExit` becomes a `PendingRestart` in `pending`; its later firing is the
separate step `timerFire`, which reproduces the callback body: it calls
`spawnProcess` first and only then looks the group up to update the stored
handle.  `killGroup`'s signal dispatch and grace timer act on the OS side and
are elided; its synchronous effect on the tracking table (immediate removal)
is kept.  Wall-clock instants are `Int` parameters (`Date.now()`).
-/

/-- Process status, initialised to `'running'`. -/
inductive PStatus where
  | running
  | stopped
  | failed
deriving DecidableEq

/-- Source `ManagedProcess`: the item, the current OS handle, the stored status. -/
structure MProc where
  item : ProcessItem
  handle : Nat
  status : PStatus
deriving DecidableEq

/-- A restart scheduled by `handleExit` and not yet fired. -/
structure PendingRestart where
  groupName : Str
  item : ProcessItem
  policy : RestartPolicy
deriving DecidableEq

/-- The manager state: groups map, restart-timestamp map, timers, spawn log. -/
structure MState where
  groups : List (Str × List MProc)
  restartTimestamps : List (Str × List Int)
  pending : List PendingRestart
  spawnLog : List (Str × Str)
  nextHandle : Nat
deriving DecidableEq

/-- The initial manager state (`new ProcessManager()`). -/
def initState : MState :=
  { groups := [], restartTimestamps := [], pending := [], spawnLog := [], nextHandle := 0 }

/-- JS `Map.set` semantics on the association lists used by the manager. -/
def setAssoc {β : Type} : List (Str × β) → Str → β → List (Str × β)
  | [], k, v => [(k, v)]
  | f :: rest, k, v =>
    if f.1 = k then (k, v) :: rest else f :: setAssoc rest k v

/-- JS `Map.get` on the association lists used by the manager. -/
def getAssoc {β : Type} (m : List (Str × β)) (k : Str) : Option β :=
  (m.find? fun f => f.1 = k).map (·.2)

/-- Source `ProcessManager.spawnProcess`: create one OS process; returns its handle. -/
def spawnProcess (s : MState) (groupName : Str) (item : ProcessItem) : Nat × MState :=
  (s.nextHandle,
    { s with spawnLog := s.spawnLog ++ [(groupName, item.name)]
             nextHandle := s.nextHandle + 1 })

/-- Spawn one process per item, building the `ManagedProcess` list. -/
def spawnItems (groupName : Str) : List ProcessItem → MState → List MProc × MState
  | [], s => ([], s)
  | it :: rest, s =>
    let (h, s1) := spawnProcess s groupName it
    let (procs, s2) := spawnItems groupName rest s1
    (⟨it, h, PStatus.running⟩ :: procs, s2)

/--
Source `ProcessManager.spawnGroup`: throws `` `Group ${groupName} is already running` ``
when the name is tracked (before any spawn), otherwise spawns one process per
item and registers the group.
-/
def spawnGroup (groupName : Str) (items : List ProcessItem)
    (_restartPolicy : RestartPolicy) (s : MState) : Except Str MState :=
  if (getAssoc s.groups groupName).isSome then
    Except.error (strOf "Group " ++ groupName ++ strOf " is already running")
  else
    let (procs, s1) := spawnItems groupName items s
    Except.ok { s1 with groups := s1.groups ++ [(groupName, procs)] }

/-- The crash-loop window: `restartWindow = 10000` ms. -/
def restartWindow : Int := 10000

/-- The crash-loop cap: `maxRestarts = 3`. -/
def maxRestarts : Nat := 3

/-- The timestamps within the trailing window: `ts.filter(t => now - t < 10000)`. -/
def windowFilter (now : Int) (ts : List Int) : List Int :=
  ts.filter fun t => now - t < restartWindow

/-- The timestamp key `` `${groupName}-${item.name}` ``. -/
def tsKey (groupName itemName : Str) : Str := groupName ++ '-' :: itemName

/--
Source `ProcessManager.handleExit`: no restart for `unless-stopped` + `SIGTERM` or
for policy `no`; otherwise re-filter the timestamps to the trailing window,
record `now`, and — unless the windowed count exceeds `maxRestarts` — schedule
a restart (the `setTimeout` becomes a `PendingRestart`).
-/
def handleExit (groupName : Str) (item : ProcessItem) (restartPolicy : RestartPolicy)
    (_code : Option Int) (signal : Option Str) (now : Int) (s : MState) : MState :=
  if restartPolicy = RestartPolicy.unlessStopped ∧ signal = some (strOf "SIGTERM") then
    s
  else if restartPolicy = RestartPolicy.no then
    s
  else
    let key := tsKey groupName item.name
    let timestamps := (getAssoc s.restartTimestamps key).getD []
    let recent := windowFilter now timestamps ++ [now]
    let s1 := { s with restartTimestamps := setAssoc s.restartTimestamps key recent }
    if recent.length > maxRestarts then s1
    else { s1 with pending := s1.pending ++ [⟨groupName, item, restartPolicy⟩] }

/-- Replace the handle of the first managed process with the item's name. -/
def updateHandle : List MProc → Str → Nat → List MProc
  | [], _, _ => []
  | mp :: rest, n, h =>
    if mp.item.name = n then { mp with handle := h } :: rest
    else mp :: updateHandle rest n h

/--
The firing of a scheduled restart: the `setTimeout` callback in `handleExit`.
It calls `spawnProcess` unconditionally, then updates the stored handle only
if the group is still tracked.
-/
def timerFire (t : PendingRestart) (s : MState) : MState :=
  let s0 := { s with pending := s.pending.erase t }
  let (h, s1) := spawnProcess s0 t.groupName t.item
  match getAssoc s1.groups t.groupName with
  | none => s1
  | some procs =>
    { s1 with groups := setAssoc s1.groups t.groupName (updateHandle procs t.item.name h) }

/--
Source `ProcessManager.killGroup`: the group is removed from tracking synchronously;
the kill signals and the grace timer act on the OS side and are elided.
Pending restart timers are not touched (there is no cancellation in the source).
-/
def killGroup (groupName : Str) (s : MState) : MState :=
  { s with groups := s.groups.filter fun g => g.1 ≠ groupName }

/-- Source `ProcessManager.getGroupStatus`: stored statuses, `[]` for an untracked group. -/
def getGroupStatus (groupName : Str) (s : MState) : List PStatus :=
  ((getAssoc s.groups groupName).getD []).map (·.status)

/-- Source `ProcessManager.isGroupRunning`. -/
def isGroupRunning (groupName : Str) (s : MState) : Bool :=
  (getAssoc s.groups groupName).isSome

/-- The manager states reachable through the supervisor's operations. -/
inductive Reachable : MState → Prop where
  | init : Reachable initState
  | spawn {s s' : MState} {g : Str} {items : List ProcessItem} {p : RestartPolicy} :
      Reachable s → spawnGroup g items p s = Except.ok s' → Reachable s'
  | exits {s : MState} {g : Str} {it : ProcessItem} {p : RestartPolicy}
      {c : Option Int} {sig : Option Str} {now : Int} :
      Reachable s → Reachable (handleExit g it p c sig now s)
  | fire {s : MState} {t : PendingRestart} :
      Reachable s → t ∈ s.pending → Reachable (timerFire t s)
  | kill {s : MState} {g : Str} :
      Reachable s → Reachable (killGroup g s)

/-!
## Output re-emission (spawnProcess stdout/stderr handlers)
-/

/-- One `data` chunk re-emitted as `` `[${item.name}] ${data}` ``. -/
def emitChunk (itemName : Str) (data : Str) : Str :=
  '[' :: (itemName ++ ']' :: ' ' :: data)

/-- The lines of an output text (split on newline). -/
def linesOf (s : Str) : List Str := splitChar '\n' s

/-!
## Concrete traces

A worker item and the states traversed by two executions of the supervisor:
one where `killGroup` is called while a restart is pending on the delay timer,
and one where a process under policy `yes` exits once a second.
-/

/-- A concrete worker item. -/
def wItem : ProcessItem := ⟨strOf "w", [strOf "w"], strOf "node w"⟩

/-- State after `spawnGroup('g', [wItem], 'yes')` on a fresh manager. -/
def trStart : MState :=
  (spawnGroup (strOf "g") [wItem] RestartPolicy.yes initState).toOption.getD initState

/-- State `trStart` after the worker's first exit (self-exit, code 1, at t = 1000). -/
def trExit1 : MState :=
  handleExit (strOf "g") wItem RestartPolicy.yes (some 1) none 1000 trStart

/-- State `trExit1` after `killGroup('g')`, issued while the restart timer is pending. -/
def trKilled : MState := killGroup (strOf "g") trExit1

/-- The restart that was left pending when the group was killed. -/
def trPendingRestart : PendingRestart := ⟨strOf "g", wItem, RestartPolicy.yes⟩

/-- State `trKilled` after the pending restart timer fires. -/
def trFired : MState := timerFire trPendingRestart trKilled

/-- Fire the first pending restart of a state. -/
def fireFirst (s : MState) : MState :=
  timerFire (s.pending.getD 0 trPendingRestart) s

/--
The crash-loop trace: the worker exits at t = 1000, 3000, 5000 and 7000
(about one second of run time plus the one-second restart delay per
iteration), each pending restart firing before the next exit.
-/
def crashLoopFinal : MState :=
  handleExit (strOf "g") wItem RestartPolicy.yes (some 1) none 7000
    (fireFirst (handleExit (strOf "g") wItem RestartPolicy.yes (some 1) none 5000
      (fireFirst (handleExit (strOf "g") wItem RestartPolicy.yes (some 1) none 3000
        (fireFirst trExit1)))))

/-- A registry entry of group `a_b`, item `c` — its file name collides with `(a, b_c)`. -/
def colEntry : PidEntry :=
  ⟨7, strOf "a_b", strOf "c", 0, RestartPolicy.yes, strOf "node c"⟩

/-- A registry entry whose PID is alive and whose start time is recent. -/
def validEntry : PidEntry :=
  ⟨1, strOf "web", strOf "s1", 900000, RestartPolicy.yes, strOf "run s1"⟩

/-- A registry entry whose PID is not alive. -/
def staleEntry : PidEntry :=
  ⟨2, strOf "web", strOf "s2", 900000, RestartPolicy.yes, strOf "run s2"⟩

/-- A registry directory holding the two sample entries under their own names. -/
def sampleDir : PidDir :=
  [(getPidFilePath (strOf "web") (strOf "s1"), validEntry),
   (getPidFilePath (strOf "web") (strOf "s2"), staleEntry)]

/-- A liveness probe under which only PID 1 is running. -/
def sampleAlive : Nat → Bool := fun p => p == 1

/-!
## Lemmas about replaceAll

The survival lemmas capture why reverse-order positional substitution is not
enough to protect every unmatched placeholder: only a placeholder whose text
cannot partially match a substituted pattern survives a pass.  A pattern
`'$' :: dj` can only match at a `'$'` character, so an occurrence of
`'$' :: dk` survives whenever neither digit string is a prefix of the other.
-/

theorem repGo_skip (pat rep : Str) :
    ∀ (k : Nat) (s : Str), repGo pat rep k s = repGo pat rep 0 (s.drop k) := by
  intro k
  induction k with
  | zero => intro s; rw [List.drop_zero]
  | succ k ih =>
    intro s
    cases s with
    | nil => simp [repGo]
    | cons c rest => simpa [repGo] using ih rest

theorem replaceAll_cons (c : Char) (rest pat rep : Str) :
    replaceAll (c :: rest) pat rep =
      if pat ≠ [] ∧ pat <+: (c :: rest) then
        rep ++ replaceAll ((c :: rest).drop pat.length) pat rep
      else c :: replaceAll rest pat rep := by
  by_cases h : pat ≠ [] ∧ pat <+: (c :: rest)
  · obtain ⟨hne, hpre⟩ := h
    cases pat with
    | nil => exact absurd rfl hne
    | cons p pt =>
      simp only [replaceAll, repGo, if_pos (And.intro hne hpre), if_pos (And.intro hne hpre)]
      rw [repGo_skip]
      simp
  · simp only [replaceAll, repGo, if_neg h, if_neg h]

theorem prefix_replaceAll_of_no_dollar :
    ∀ (w : Str), '$' ∉ w → ∀ (s dj rep : Str),
      w <+: s → w <+: replaceAll s ('$' :: dj) rep := by
  intro w
  induction w with
  | nil => intro _ s dj rep _; exact List.nil_prefix
  | cons a w' ih =>
    intro hnd s dj rep hpre
    cases s with
    | nil => simp at hpre
    | cons b s2 =>
      rw [List.cons_prefix_cons] at hpre
      obtain ⟨hab, hp⟩ := hpre
      rw [replaceAll_cons, if_neg]
      · rw [List.cons_prefix_cons]
        exact ⟨hab, ih (fun hm => hnd (List.mem_cons_of_mem _ hm)) s2 dj rep hp⟩
      · rintro ⟨-, hpp⟩
        rw [List.cons_prefix_cons] at hpp
        apply hnd
        rw [hab, ← hpp.1]
        exact List.mem_cons_self _ _

theorem prefix_placeholder_replaceAll (dk dj rep : Str) (hdk : '$' ∉ dk)
    (h1 : ¬ dj <+: dk) (h2 : ¬ dk <+: dj) :
    ∀ (s : Str), ('$' :: dk) <+: s → ('$' :: dk) <+: replaceAll s ('$' :: dj) rep := by
  intro s hpre
  cases s with
  | nil => simp at hpre
  | cons b s2 =>
    rw [List.cons_prefix_cons] at hpre
    obtain ⟨hb, hp⟩ := hpre
    rw [replaceAll_cons, if_neg]
    · rw [List.cons_prefix_cons]
      exact ⟨hb, prefix_replaceAll_of_no_dollar dk hdk s2 dj rep hp⟩
    · rintro ⟨-, hpp⟩
      rw [List.cons_prefix_cons] at hpp
      rcases List.prefix_or_prefix_of_prefix hpp.2 hp with h | h
      · exact h1 h
      · exact h2 h

theorem infix_drop_of_prefix_no_dollar :
    ∀ (w : Str), '$' ∉ w → ∀ (s dk : Str),
      ('$' :: dk) <:+: s → w <+: s → ('$' :: dk) <:+: s.drop w.length := by
  intro w
  induction w with
  | nil => intro _ s dk h _; simpa using h
  | cons a w' ih =>
    intro hnd s dk hinf hpre
    cases s with
    | nil => simp at hpre
    | cons b s2 =>
      rw [List.cons_prefix_cons] at hpre
      obtain ⟨hab, hp⟩ := hpre
      rw [List.infix_cons_iff] at hinf
      rcases hinf with hP | hI
      · rw [List.cons_prefix_cons] at hP
        exact absurd (by rw [hab, ← hP.1]; exact List.mem_cons_self _ _ : '$' ∈ a :: w') hnd
      · simpa using ih (fun hm => hnd (List.mem_cons_of_mem _ hm)) s2 dk hI hp

theorem infix_placeholder_replaceAll_aux (dk dj rep : Str) (hdk : '$' ∉ dk)
    (hdj : '$' ∉ dj) (h1 : ¬ dj <+: dk) (h2 : ¬ dk <+: dj) :
    ∀ (n : Nat) (s : Str), s.length ≤ n →
      ('$' :: dk) <:+: s → ('$' :: dk) <:+: replaceAll s ('$' :: dj) rep := by
  intro n
  induction n with
  | zero =>
    intro s hl hinf
    have hs : s = [] := List.eq_nil_of_length_eq_zero (Nat.le_zero.mp hl)
    subst hs
    simp at hinf
  | succ n IH =>
    intro s hl hinf
    cases s with
    | nil => simp at hinf
    | cons c rest =>
      rw [List.infix_cons_iff] at hinf
      rcases hinf with hP | hI
      · exact (prefix_placeholder_replaceAll dk dj rep hdk h1 h2 _ hP).isInfix
      · by_cases hc : ('$' :: dj) ≠ [] ∧ ('$' :: dj) <+: (c :: rest)
        · have hpp := hc.2
          rw [List.cons_prefix_cons] at hpp
          obtain ⟨hdollar, hdjpre⟩ := hpp
          rw [replaceAll_cons, if_pos hc]
          have hstep := infix_drop_of_prefix_no_dollar dj hdj rest dk hI hdjpre
          have hlen : (rest.drop dj.length).length ≤ n := by
            have hl' : rest.length ≤ n := by simpa using hl
            calc (rest.drop dj.length).length ≤ rest.length := by
                  simp [List.length_drop]
              _ ≤ n := hl'
          have hrec := IH (rest.drop dj.length) hlen hstep
          have hgoal : ('$' :: dk) <:+: replaceAll ((c :: rest).drop ('$' :: dj).length)
              ('$' :: dj) rep := by
            simpa using hrec
          exact hgoal.trans (List.suffix_append rep _).isInfix
        · rw [replaceAll_cons, if_neg hc]
          have hl' : rest.length ≤ n := by simpa using hl
          exact List.infix_cons (IH rest hl' hI)

theorem infix_placeholder_replaceAll (dk dj rep : Str) (hdk : '$' ∉ dk)
    (hdj : '$' ∉ dj) (h1 : ¬ dj <+: dk) (h2 : ¬ dk <+: dj) (s : Str)
    (h : ('$' :: dk) <:+: s) : ('$' :: dk) <:+: replaceAll s ('$' :: dj) rep :=
  infix_placeholder_replaceAll_aux dk dj rep hdk hdj h1 h2 s.length s (Nat.le_refl _) h

/-!
## Lemmas about decimal renderings
-/

theorem digitChar_isDigit (d : Nat) : (digitChar d).isDigit = true := by
  unfold digitChar
  repeat' split
  all_goals decide

theorem mem_natDigitsAux_isDigit :
    ∀ (f n : Nat) (c : Char), c ∈ natDigitsAux f n → c.isDigit = true := by
  intro f
  induction f with
  | zero => intro n c h; simp [natDigitsAux] at h
  | succ f ih =>
    intro n c h
    by_cases hn : n < 10
    · simp [natDigitsAux, hn] at h
      rw [h]
      exact digitChar_isDigit n
    · simp only [natDigitsAux, if_neg hn, List.mem_append, List.mem_singleton] at h
      rcases h with h | h
      · exact ih _ _ h
      · rw [h]
        exact digitChar_isDigit _

theorem mem_natDigits_isDigit (n : Nat) (c : Char) (h : c ∈ natDigits n) :
    c.isDigit = true :=
  mem_natDigitsAux_isDigit _ _ _ h

theorem dollar_not_mem_natDigits (n : Nat) : '$' ∉ natDigits n := fun h =>
  absurd (mem_natDigits_isDigit n '$' h) (by decide)

theorem natDigits_ne_nil (n : Nat) : natDigits n ≠ [] := by
  unfold natDigits natDigitsAux
  by_cases hn : n < 10 <;> simp [hn]

theorem digits_key_not_prefix (key : Str) (i : Nat) (hne : key ≠ [])
    (hhead : ∀ c, key.head? = some c → c.isDigit = false) :
    ¬ (key <+: natDigits i) ∧ ¬ (natDigits i <+: key) := by
  cases key with
  | nil => exact absurd rfl hne
  | cons a k' =>
    have ha : a.isDigit = false := hhead a rfl
    cases hD : natDigits i with
    | nil => exact absurd hD (natDigits_ne_nil i)
    | cons d d' =>
      have hd : d.isDigit = true :=
        mem_natDigits_isDigit i d (by rw [hD]; exact List.mem_cons_self _ _)
      have had : a ≠ d := fun h => by rw [h, hd] at ha; cases ha
      constructor <;> intro hp <;> rw [List.cons_prefix_cons] at hp
      · exact had hp.1
      · exact had hp.1.symm

/-!
## Survival through the expander's phases
-/

theorem posLoop_infix (args : List Str) (dk : Str) (hdk : '$' ∉ dk) :
    ∀ (n : Nat) (s : Str),
      (∀ j ∈ List.range n,
        ¬ (natDigits (j + 1) <+: dk) ∧ ¬ (dk <+: natDigits (j + 1))) →
      ('$' :: dk) <:+: s → ('$' :: dk) <:+: posLoop args n s := by
  intro n
  induction n with
  | zero => intro s _ h; exact h
  | succ n ih =>
    intro s hj h
    simp only [posLoop]
    apply ih
    · intro j hjr
      exact hj j (List.mem_range.mpr (Nat.lt_succ_of_lt (List.mem_range.mp hjr)))
    · have hcond := hj n (List.mem_range.mpr (Nat.lt_succ_self n))
      exact infix_placeholder_replaceAll dk (natDigits (n + 1)) _ hdk
        (dollar_not_mem_natDigits (n + 1)) hcond.1 hcond.2 s h

theorem expandNamedParams_infix (dk : Str) (hdk : '$' ∉ dk) :
    ∀ (params : List (Str × Str)) (s : Str),
      (∀ kv ∈ params, ¬ (kv.1 <+: dk) ∧ ¬ (dk <+: kv.1) ∧ '$' ∉ kv.1) →
      ('$' :: dk) <:+: s → ('$' :: dk) <:+: expandNamedParams s params := by
  intro params
  induction params with
  | nil => intro s _ h; exact h
  | cons kv rest ih =>
    intro s hkv h
    simp only [expandNamedParams, List.foldl_cons]
    have hk := hkv kv (List.mem_cons_self _ _)
    exact ih (replaceAll s ('$' :: kv.1) kv.2)
      (fun kv' h' => hkv kv' (List.mem_cons_of_mem _ h'))
      (infix_placeholder_replaceAll dk kv.1 kv.2 hdk hk.2.2 hk.1 hk.2.1 s h)

/-!
## Claims C1 and C2
-/

/--
C1, counterexample: the claim asserts that a placeholder whose index exceeds
the number of supplied arguments is left verbatim, and in particular that with
a single argument an occurrence of `$10` survives unchanged.  On the code,
`expand('echo $1 $10', {value:'x'})` yields `'echo x x0'`: the `$1`-pass's
`replaceAll` consumes the `$1` prefix of the unmatched `$10`, so `$10` does
not survive (it is not even a substring of the output).
-/
theorem claim1_counterexample :
    (expand (strOf "echo $1 $10") ⟨strOf "itemA", strOf "x"⟩ 0 []).fullCmd
      = strOf "echo x x0"
    ∧ ¬ ((strOf "$10") <:+:
        (expand (strOf "echo $1 $10") ⟨strOf "itemA", strOf "x"⟩ 0 []).fullCmd) := by
  exact ⟨by decide, by decide⟩

/--
C1, amended: `expand` substitutes the positional placeholders `$N` down to
`$1` (the repo's own test instance `expand('cmd $1 $2 $3 $4', 'a,b') =
'cmd a b $3 $4'` is included), and an occurrence of a placeholder `$k` is
left verbatim in `fullCmd` provided the decimal text of `k` neither extends
nor is extended by the decimal text of any substituted index `1..N`; without
that proviso the substitution of a lower index corrupts the placeholder
(`$10` becomes `x0` under a single argument `x`), as the counterexample shows.
-/
theorem claim1_unmatched_placeholder (template : Str) (item : ItemEntry) (k : Nat)
    (hk : ∀ j ∈ List.range ((splitChar ',' item.value).map trim).length,
        ¬ (natDigits (j + 1) <+: natDigits k) ∧ ¬ (natDigits k <+: natDigits (j + 1)))
    (hocc : ('$' :: natDigits k) <:+: template) :
    ('$' :: natDigits k) <:+: (expand template item 0 []).fullCmd
    ∧ (expand (strOf "cmd $1 $2 $3 $4") ⟨strOf "itemA", strOf "a,b"⟩ 0 []).fullCmd
        = strOf "cmd a b $3 $4" := by
  constructor
  · have h := posLoop_infix ((splitChar ',' item.value).map trim) (natDigits k)
      (dollar_not_mem_natDigits k) ((splitChar ',' item.value).map trim).length
      template hk hocc
    simpa [expand, expandNamedParams] using h
  · decide

/--
C1, witness: with a single argument (`N = 1`) the placeholder `$3` shares no
decimal prefix with `$1`, so it survives: `expand('echo $1 $3', 'x')` keeps
`$3` in the output.
-/
theorem claim1_witness :
    (∀ j ∈ List.range ((splitChar ',' (strOf "x")).map trim).length,
        ¬ (natDigits (j + 1) <+: natDigits 3) ∧ ¬ (natDigits 3 <+: natDigits (j + 1)))
    ∧ (('$' :: natDigits 3) <:+: strOf "echo $1 $3")
    ∧ (('$' :: natDigits 3) <:+:
        (expand (strOf "echo $1 $3") ⟨strOf "itemA", strOf "x"⟩ 0 []).fullCmd
      ∧ (expand (strOf "cmd $1 $2 $3 $4") ⟨strOf "itemA", strOf "a,b"⟩ 0 []).fullCmd
          = strOf "cmd a b $3 $4") :=
  ⟨by decide, by decide,
    claim1_unmatched_placeholder (strOf "echo $1 $3") ⟨strOf "itemA", strOf "x"⟩ 3
      (by decide) (by decide)⟩

/--
C2, counterexample: the claim asserts the positional and named namespaces
never interact for every named-parameter map.  With the named key `1x`, the
template `$1x` holds the named placeholder `$1x` (named substitution alone
would produce `v`), yet `expand` with one positional argument `a` produces
`ax`: the positional pass consumed the digit prefix of the named placeholder,
so a positional argument value partially satisfied a named placeholder.
-/
theorem claim2_counterexample :
    expandNamedParams (strOf "$1x") [(strOf "1x", strOf "v")] = strOf "v"
    ∧ (expand (strOf "$1x") ⟨strOf "itemB", strOf "a"⟩ 0
        [(strOf "1x", strOf "v")]).fullCmd = strOf "ax" := by
  exact ⟨by decide, by decide⟩

/--
C2, amended: `expand` performs all positional substitution before any named
substitution, and provided every named-parameter key is nonempty, contains no
`$`, and does not begin with a digit, the namespaces do not interact: every
occurrence of a positional placeholder `$i` surviving into the named phase is
untouched by it, every named placeholder `$key` of the template survives the
positional phase, and `expand('node $1.js --name $name', 'server',
{name:'Alice'})` yields `'node server.js --name Alice'`.
-/
theorem claim2_two_phase (template : Str) (item : ItemEntry)
    (params : List (Str × Str)) (i : Nat)
    (hkeys : ∀ kv ∈ params, kv.1 ≠ [] ∧ '$' ∉ kv.1
        ∧ ∀ c, kv.1.head? = some c → c.isDigit = false) :
    (expand template item 0 params).fullCmd
      = expandNamedParams
          (posLoop ((splitChar ',' item.value).map trim)
            ((splitChar ',' item.value).map trim).length template) params
    ∧ (∀ s : Str, ('$' :: natDigits i) <:+: s →
        ('$' :: natDigits i) <:+: expandNamedParams s params)
    ∧ (∀ kv ∈ params, ('$' :: kv.1) <:+: template →
        ('$' :: kv.1) <:+: posLoop ((splitChar ',' item.value).map trim)
          ((splitChar ',' item.value).map trim).length template)
    ∧ (expand (strOf "node $1.js --name $name") ⟨strOf "itemC", strOf "server"⟩ 0
        [(strOf "name", strOf "Alice")]).fullCmd
        = strOf "node server.js --name Alice" := by
  refine ⟨rfl, ?_, ?_, by decide⟩
  · intro s hs
    apply expandNamedParams_infix (natDigits i) (dollar_not_mem_natDigits i) params s
    · intro kv hkv
      have hk := hkeys kv hkv
      have hnp := digits_key_not_prefix kv.1 i hk.1 hk.2.2
      exact ⟨hnp.1, hnp.2, hk.2.1⟩
    · exact hs
  · intro kv hkv hocc
    have hk := hkeys kv hkv
    apply posLoop_infix ((splitChar ',' item.value).map trim) kv.1 hk.2.1
    · intro j _
      have hnp := digits_key_not_prefix kv.1 (j + 1) hk.1 hk.2.2
      exact ⟨hnp.2, hnp.1⟩
    · exact hocc

/--
C2, witness: with the key `name` (nonempty, `$`-free, not digit-initial) the
amended two-phase statement holds at the claim's own example.
-/
theorem claim2_witness :
    (∀ kv ∈ [(strOf "name", strOf "Alice")], kv.1 ≠ [] ∧ '$' ∉ kv.1
        ∧ ∀ c, kv.1.head? = some c → c.isDigit = false)
    ∧ ((expand (strOf "node $1.js --name $name") ⟨strOf "itemC", strOf "server"⟩ 0
          [(strOf "name", strOf "Alice")]).fullCmd
        = expandNamedParams
            (posLoop ((splitChar ',' (strOf "server")).map trim)
              ((splitChar ',' (strOf "server")).map trim).length
              (strOf "node $1.js --name $name")) [(strOf "name", strOf "Alice")]
      ∧ (∀ s : Str, ('$' :: natDigits 1) <:+: s →
          ('$' :: natDigits 1) <:+: expandNamedParams s [(strOf "name", strOf "Alice")])
      ∧ (∀ kv ∈ [(strOf "name", strOf "Alice")],
          ('$' :: kv.1) <:+: strOf "node $1.js --name $name" →
          ('$' :: kv.1) <:+: posLoop ((splitChar ',' (strOf "server")).map trim)
            ((splitChar ',' (strOf "server")).map trim).length
            (strOf "node $1.js --name $name"))
      ∧ (expand (strOf "node $1.js --name $name") ⟨strOf "itemC", strOf "server"⟩ 0
          [(strOf "name", strOf "Alice")]).fullCmd
          = strOf "node server.js --name Alice") :=
  ⟨by decide,
    claim2_two_phase (strOf "node $1.js --name $name") ⟨strOf "itemC", strOf "server"⟩
      [(strOf "name", strOf "Alice")] 1 (by decide)⟩

/-!
## Lemmas about the manager's association lists
-/

theorem getAssoc_nil {β : Type} (k : Str) : getAssoc ([] : List (Str × β)) k = none :=
  rfl

theorem getAssoc_cons {β : Type} (f : Str × β) (rest : List (Str × β)) (k : Str) :
    getAssoc (f :: rest) k = if f.1 = k then some f.2 else getAssoc rest k := by
  by_cases h : f.1 = k <;> simp [getAssoc, List.find?_cons, h]

theorem getAssoc_setAssoc_self {β : Type} (m : List (Str × β)) (k : Str) (v : β) :
    getAssoc (setAssoc m k v) k = some v := by
  induction m with
  | nil => simp [setAssoc, getAssoc_cons]
  | cons f rest ih =>
    by_cases h : f.1 = k
    · simp [setAssoc, h, getAssoc_cons]
    · simp only [setAssoc, if_neg h]
      rw [getAssoc_cons, if_neg h]
      exact ih

theorem getAssoc_setAssoc_ne {β : Type} (m : List (Str × β)) (k k' : Str) (v : β)
    (h : k' ≠ k) : getAssoc (setAssoc m k v) k' = getAssoc m k' := by
  induction m with
  | nil =>
    simp only [setAssoc, getAssoc_cons, getAssoc_nil]
    rw [if_neg (fun he => h he.symm)]
  | cons f rest ih =>
    by_cases hf : f.1 = k
    · simp only [setAssoc, if_pos hf, getAssoc_cons]
      rw [if_neg (fun he => h he.symm), if_neg (by rw [hf]; exact fun he => h he.symm)]
    · simp only [setAssoc, if_neg hf, getAssoc_cons]
      rw [ih]

theorem getAssoc_mem {β : Type} {m : List (Str × β)} {k : Str} {v : β}
    (h : getAssoc m k = some v) : (k, v) ∈ m := by
  induction m with
  | nil => simp [getAssoc_nil] at h
  | cons f rest ih =>
    rw [getAssoc_cons] at h
    by_cases hf : f.1 = k
    · rw [if_pos hf] at h
      obtain ⟨a, b⟩ := f
      simp only [Option.some.injEq] at h
      simp only at hf
      rw [← hf, ← h] at *
      exact List.mem_cons_self _ _
    · rw [if_neg hf] at h
      exact List.mem_cons_of_mem _ (ih h)

theorem mem_setAssoc {β : Type} {m : List (Str × β)} {k : Str} {v : β} {f : Str × β}
    (h : f ∈ setAssoc m k v) : f = (k, v) ∨ f ∈ m := by
  induction m with
  | nil => simpa [setAssoc] using h
  | cons g rest ih =>
    by_cases hg : g.1 = k
    · simp only [setAssoc, if_pos hg, List.mem_cons] at h
      rcases h with h | h
      · exact Or.inl h
      · exact Or.inr (List.mem_cons_of_mem _ h)
    · simp only [setAssoc, if_neg hg, List.mem_cons] at h
      rcases h with h | h
      · exact Or.inr (h ▸ List.mem_cons_self _ _)
      · rcases ih h with h' | h'
        · exact Or.inl h'
        · exact Or.inr (List.mem_cons_of_mem _ h')

theorem getAssoc_append_of_none {β : Type} (m : List (Str × β)) (k : Str) (v : β)
    (h : getAssoc m k = none) : getAssoc (m ++ [(k, v)]) k = some v := by
  induction m with
  | nil => simp [getAssoc_cons]
  | cons f rest ih =>
    rw [getAssoc_cons] at h
    by_cases hf : f.1 = k
    · rw [if_pos hf] at h
      cases h
    · rw [if_neg hf] at h
      rw [List.cons_append, getAssoc_cons, if_neg hf]
      exact ih h

theorem getAssoc_append_ne {β : Type} (m : List (Str × β)) (k k' : Str) (v : β)
    (h : k' ≠ k) : getAssoc (m ++ [(k, v)]) k' = getAssoc m k' := by
  induction m with
  | nil =>
    simp only [List.nil_append, getAssoc_cons, getAssoc_nil]
    rw [if_neg (fun he => h he.symm)]
  | cons f rest ih =>
    rw [List.cons_append, getAssoc_cons, getAssoc_cons]
    by_cases hf : f.1 = k'
    · rw [if_pos hf, if_pos hf]
    · rw [if_neg hf, if_neg hf, ih]

theorem getAssoc_filter_ne {β : Type} (m : List (Str × β)) (k g : Str) (h : k ≠ g) :
    getAssoc (m.filter fun f => f.1 ≠ g) k = getAssoc m k := by
  induction m with
  | nil => rfl
  | cons f rest ih =>
    by_cases hf : f.1 = g
    · have hk : f.1 ≠ k := fun he => h (he ▸ hf)
      rw [List.filter_cons_of_neg (by simp [hf]), getAssoc_cons, if_neg hk]
      exact ih
    · rw [List.filter_cons_of_pos (by simp [hf]), getAssoc_cons, getAssoc_cons, ih]

theorem getAssoc_filter_self {β : Type} (m : List (Str × β)) (g : Str) :
    getAssoc (m.filter fun f => f.1 ≠ g) g = none := by
  induction m with
  | nil => rfl
  | cons f rest ih =>
    by_cases hf : f.1 = g
    · rw [List.filter_cons_of_neg (by simp [hf])]
      exact ih
    · rw [List.filter_cons_of_pos (by simp [hf]), getAssoc_cons, if_neg hf]
      exact ih

theorem tsKey_ne_of_item_ne (g n1 n2 : Str) (h : n1 ≠ n2) : tsKey g n1 ≠ tsKey g n2 :=
  fun he => h (List.cons.inj (List.append_cancel_left he)).2

/-!
## Lemmas about the manager's operations
-/

theorem spawnItems_length (g : Str) :
    ∀ (items : List ProcessItem) (s : MState),
      (spawnItems g items s).1.length = items.length := by
  intro items
  induction items with
  | nil => intro s; rfl
  | cons it rest ih =>
    intro s
    simp [spawnItems, spawnProcess, ih]

theorem spawnItems_groups (g : Str) :
    ∀ (items : List ProcessItem) (s : MState),
      (spawnItems g items s).2.groups = s.groups := by
  intro items
  induction items with
  | nil => intro s; rfl
  | cons it rest ih =>
    intro s
    simp [spawnItems, spawnProcess, ih]

theorem spawnItems_spawnLog (g : Str) :
    ∀ (items : List ProcessItem) (s : MState),
      (spawnItems g items s).2.spawnLog
        = s.spawnLog ++ items.map (fun it => (g, it.name)) := by
  intro items
  induction items with
  | nil => intro s; simp [spawnItems]
  | cons it rest ih =>
    intro s
    simp [spawnItems, spawnProcess, ih]

theorem spawnItems_status (g : Str) :
    ∀ (items : List ProcessItem) (s : MState) (mp : MProc),
      mp ∈ (spawnItems g items s).1 → mp.status = PStatus.running := by
  intro items
  induction items with
  | nil => intro s mp h; simp [spawnItems] at h
  | cons it rest ih =>
    intro s mp h
    simp only [spawnItems, List.mem_cons] at h
    rcases h with h | h
    · rw [h]
    · exact ih _ _ h

theorem updateHandle_status :
    ∀ (procs : List MProc) (n : Str) (h : Nat) (mp : MProc),
      mp ∈ updateHandle procs n h → ∃ mp' ∈ procs, mp.status = mp'.status := by
  intro procs
  induction procs with
  | nil => intro n h mp hm; simp [updateHandle] at hm
  | cons p rest ih =>
    intro n h mp hm
    by_cases hp : p.item.name = n
    · simp only [updateHandle, if_pos hp, List.mem_cons] at hm
      rcases hm with hm | hm
      · exact ⟨p, List.mem_cons_self _ _, by rw [hm]⟩
      · exact ⟨mp, List.mem_cons_of_mem _ hm, rfl⟩
    · simp only [updateHandle, if_neg hp, List.mem_cons] at hm
      rcases hm with hm | hm
      · exact ⟨p, List.mem_cons_self _ _, by rw [hm]⟩
      · obtain ⟨mp', hmp', he⟩ := ih n h mp hm
        exact ⟨mp', List.mem_cons_of_mem _ hmp', he⟩

theorem updateHandle_map_status :
    ∀ (procs : List MProc) (n : Str) (h : Nat),
      (updateHandle procs n h).map (·.status) = procs.map (·.status) := by
  intro procs
  induction procs with
  | nil => intro n h; rfl
  | cons p rest ih =>
    intro n h
    by_cases hp : p.item.name = n
    · simp [updateHandle, if_pos hp]
    · simp [updateHandle, if_neg hp, ih]

theorem handleExit_groups (g : Str) (it : ProcessItem) (p : RestartPolicy)
    (c : Option Int) (sig : Option Str) (now : Int) (s : MState) :
    (handleExit g it p c sig now s).groups = s.groups := by
  by_cases h1 : p = RestartPolicy.unlessStopped ∧ sig = some (strOf "SIGTERM")
  · simp [handleExit, h1]
  · by_cases h2 : p = RestartPolicy.no
    · simp [handleExit, h1, h2]
    · simp only [handleExit, if_neg h1, if_neg h2]
      split <;> rfl

theorem handleExit_spawnLog (g : Str) (it : ProcessItem) (p : RestartPolicy)
    (c : Option Int) (sig : Option Str) (now : Int) (s : MState) :
    (handleExit g it p c sig now s).spawnLog = s.spawnLog := by
  by_cases h1 : p = RestartPolicy.unlessStopped ∧ sig = some (strOf "SIGTERM")
  · simp [handleExit, h1]
  · by_cases h2 : p = RestartPolicy.no
    · simp [handleExit, h1, h2]
    · simp only [handleExit, if_neg h1, if_neg h2]
      split <;> rfl

theorem killGroup_getGroupStatus_self (g : Str) (s : MState) :
    getGroupStatus g (killGroup g s) = [] := by
  unfold getGroupStatus killGroup
  rw [getAssoc_filter_self]
  rfl

theorem timerFire_getGroupStatus (g : Str) (t : PendingRestart) (s : MState) :
    getGroupStatus g (timerFire t s) = getGroupStatus g s := by
  unfold timerFire spawnProcess
  simp only
  cases hga : getAssoc s.groups t.groupName with
  | none => simp [getGroupStatus]
  | some procs =>
    simp only [getGroupStatus]
    by_cases hg : g = t.groupName
    · rw [hg, getAssoc_setAssoc_self, hga]
      simp [updateHandle_map_status]
    · rw [getAssoc_setAssoc_ne _ _ _ _ hg]

/-- Every stored status in every reachable state is `'running'`. -/
theorem reachable_all_running {s : MState} (h : Reachable s) :
    ∀ gp ∈ s.groups, ∀ mp ∈ gp.2, mp.status = PStatus.running := by
  induction h with
  | init => intro gp h; simp [initState] at h
  | @spawn s s' g items p _ hok ih =>
    unfold spawnGroup at hok
    by_cases hdup : (getAssoc s.groups g).isSome
    · rw [if_pos hdup] at hok
      cases hok
    · rw [if_neg hdup] at hok
      simp only [Except.ok.injEq] at hok
      intro gp hgp mp hmp
      rw [← hok] at hgp
      simp only [List.mem_append, List.mem_singleton] at hgp
      rcases hgp with hgp | hgp
      · rw [spawnItems_groups] at hgp
        exact ih gp hgp mp hmp
      · rw [hgp] at hmp
        exact spawnItems_status g items s mp hmp
  | @exits s g it p c sig now _ ih =>
    intro gp hgp mp hmp
    rw [handleExit_groups] at hgp
    exact ih gp hgp mp hmp
  | @fire s t _ _ ih =>
    intro gp hgp mp hmp
    unfold timerFire spawnProcess at hgp
    simp only at hgp
    cases hga : getAssoc s.groups t.groupName with
    | none =>
      rw [hga] at hgp
      exact ih gp hgp mp hmp
    | some procs =>
      rw [hga] at hgp
      simp only at hgp
      rcases mem_setAssoc hgp with hgp | hgp
      · rw [hgp] at hmp
        simp only at hmp
        obtain ⟨mp', hmp', he⟩ := updateHandle_status procs t.item.name _ mp hmp
        rw [he]
        exact ih (t.groupName, procs) (getAssoc_mem hga) mp' hmp'
      · exact ih gp hgp mp hmp
  | @kill s g _ ih =>
    intro gp hgp mp hmp
    simp only [killGroup, List.mem_filter] at hgp
    exact ih gp hgp.1 mp hmp

/--
Restart path of `handleExit`, shared description: when neither guard fires,
the timestamps for the `(group, item)` key are re-filtered to the trailing
window and extended with `now`, a restart is scheduled exactly when the
windowed count stays within `maxRestarts`, and no other key is touched.
-/
theorem handleExit_restart_path (g : Str) (it : ProcessItem) (p : RestartPolicy)
    (c : Option Int) (sig : Option Str) (now : Int) (s : MState)
    (h1 : ¬ (p = RestartPolicy.unlessStopped ∧ sig = some (strOf "SIGTERM")))
    (h2 : p ≠ RestartPolicy.no) :
    getAssoc (handleExit g it p c sig now s).restartTimestamps (tsKey g it.name)
      = some (windowFilter now
          ((getAssoc s.restartTimestamps (tsKey g it.name)).getD []) ++ [now])
    ∧ (¬ maxRestarts < (windowFilter now
          ((getAssoc s.restartTimestamps (tsKey g it.name)).getD []) ++ [now]).length →
        (handleExit g it p c sig now s).pending
          = s.pending ++ [⟨g, it, p⟩])
    ∧ (maxRestarts < (windowFilter now
          ((getAssoc s.restartTimestamps (tsKey g it.name)).getD []) ++ [now]).length →
        (handleExit g it p c sig now s).pending = s.pending)
    ∧ (∀ n2 : Str, n2 ≠ it.name →
        getAssoc (handleExit g it p c sig now s).restartTimestamps (tsKey g n2)
          = getAssoc s.restartTimestamps (tsKey g n2)) := by
  simp only [handleExit, if_neg h1, if_neg h2]
  refine ⟨?_, ?_, ?_, ?_⟩
  · split
    · exact getAssoc_setAssoc_self _ _ _
    · exact getAssoc_setAssoc_self _ _ _
  · intro h
    rw [if_neg h]
  · intro h
    rw [if_pos h]
  · intro n2 hn2
    split
    · exact getAssoc_setAssoc_ne _ _ _ _ (tsKey_ne_of_item_ne g n2 it.name hn2)
    · exact getAssoc_setAssoc_ne _ _ _ _ (tsKey_ne_of_item_ne g n2 it.name hn2)

/-!
## Claims C3, C4, C5, C6, C10
-/

/--
C3: the claim says a pending restart timer is tracked and cancelled on
`killGroup`, so that no process of a killed group is ever re-spawned by a
previously scheduled restart.  The code keeps no timer handle and cancels
nothing: in the trace below the worker of group `g` exits, a restart is
pending, `killGroup('g')` removes the group — the pending restart survives —
and when the timer fires the callback's `spawnProcess` runs before the group
lookup, so a second OS process for `('g','w')` is spawned after the kill
while the group stays untracked (an orphan the manager can no longer kill).
-/
theorem claim3_pending_restart_survives_kill :
    spawnGroup (strOf "g") [wItem] RestartPolicy.yes initState = Except.ok trStart
    ∧ trExit1.pending = [trPendingRestart]
    ∧ isGroupRunning (strOf "g") trKilled = false
    ∧ trKilled.pending = [trPendingRestart]
    ∧ trFired.spawnLog = [(strOf "g", strOf "w"), (strOf "g", strOf "w")]
    ∧ isGroupRunning (strOf "g") trFired = false := by
  exact ⟨rfl, by decide, by decide, by decide, by decide, by decide⟩

/--
C4: restart attempts are counted in a trailing 10-second sliding window,
re-filtered on each exit; a restart is scheduled exactly when the windowed
count stays within `maxRestarts = 3`, other items of the group keep their
own timestamp lists, and in the concrete crash-loop trace (exits at
t = 1000, 3000, 5000, 7000) exactly 3 restarts occur and the 4th is
suppressed.
-/
theorem claim4_crash_loop_window (s : MState) (g : Str) (it : ProcessItem)
    (c : Option Int) (sig : Option Str) (now : Int) :
    getAssoc (handleExit g it RestartPolicy.yes c sig now s).restartTimestamps
        (tsKey g it.name)
      = some (windowFilter now
          ((getAssoc s.restartTimestamps (tsKey g it.name)).getD []) ++ [now])
    ∧ (¬ maxRestarts < (windowFilter now
          ((getAssoc s.restartTimestamps (tsKey g it.name)).getD []) ++ [now]).length →
        (handleExit g it RestartPolicy.yes c sig now s).pending
          = s.pending ++ [⟨g, it, RestartPolicy.yes⟩])
    ∧ (maxRestarts < (windowFilter now
          ((getAssoc s.restartTimestamps (tsKey g it.name)).getD []) ++ [now]).length →
        (handleExit g it RestartPolicy.yes c sig now s).pending = s.pending)
    ∧ (∀ n2 : Str, n2 ≠ it.name →
        getAssoc (handleExit g it RestartPolicy.yes c sig now s).restartTimestamps
            (tsKey g n2)
          = getAssoc s.restartTimestamps (tsKey g n2))
    ∧ crashLoopFinal.spawnLog.length = 4
    ∧ crashLoopFinal.pending = []
    ∧ getAssoc crashLoopFinal.restartTimestamps (tsKey (strOf "g") (strOf "w"))
        = some [1000, 3000, 5000, 7000] := by
  have h := handleExit_restart_path g it RestartPolicy.yes c sig now s
    (by rintro ⟨h, -⟩; cases h) (by intro h; cases h)
  exact ⟨h.1, h.2.1, h.2.2.1, h.2.2.2, by decide, by decide, by decide⟩

/--
C4, witness: on a fresh state the first exit of the worker records one
timestamp and schedules one restart; a sibling item's key is untouched.
-/
theorem claim4_witness :
    (¬ maxRestarts < (windowFilter 1000
        ((getAssoc initState.restartTimestamps (tsKey (strOf "g") (strOf "w"))).getD [])
        ++ [1000]).length)
    ∧ (handleExit (strOf "g") wItem RestartPolicy.yes (some 1) none 1000
        initState).pending
      = initState.pending ++ [⟨strOf "g", wItem, RestartPolicy.yes⟩] := by
  have h := claim4_crash_loop_window initState (strOf "g") wItem (some 1) none 1000
  exact ⟨by decide, h.2.1 (by decide)⟩

/--
C5: the exit handler follows the restart policy: under `no` it never
restarts (the state is untouched); under `unless-stopped` it does not restart
when the exit carries the supervisor's own termination signal SIGTERM, but
enters the restart path on any other exit (e.g. self-exit with a code);
under `yes` it always enters the restart path — in both cases scheduling the
restart exactly when the crash-loop cap is not exceeded.
-/
theorem claim5_restart_policies (s : MState) (g : Str) (it : ProcessItem)
    (c : Option Int) (sig : Option Str) (now : Int) :
    handleExit g it RestartPolicy.no c sig now s = s
    ∧ handleExit g it RestartPolicy.unlessStopped c (some (strOf "SIGTERM")) now s = s
    ∧ (sig ≠ some (strOf "SIGTERM") →
        getAssoc (handleExit g it RestartPolicy.unlessStopped c sig now s).restartTimestamps
            (tsKey g it.name)
          = some (windowFilter now
              ((getAssoc s.restartTimestamps (tsKey g it.name)).getD []) ++ [now])
        ∧ (¬ maxRestarts < (windowFilter now
              ((getAssoc s.restartTimestamps (tsKey g it.name)).getD []) ++ [now]).length →
            (handleExit g it RestartPolicy.unlessStopped c sig now s).pending
              = s.pending ++ [⟨g, it, RestartPolicy.unlessStopped⟩]))
    ∧ (getAssoc (handleExit g it RestartPolicy.yes c sig now s).restartTimestamps
          (tsKey g it.name)
        = some (windowFilter now
            ((getAssoc s.restartTimestamps (tsKey g it.name)).getD []) ++ [now])
      ∧ (¬ maxRestarts < (windowFilter now
            ((getAssoc s.restartTimestamps (tsKey g it.name)).getD []) ++ [now]).length →
          (handleExit g it RestartPolicy.yes c sig now s).pending
            = s.pending ++ [⟨g, it, RestartPolicy.yes⟩])) := by
  refine ⟨?_, ?_, ?_, ?_⟩
  · simp [handleExit]
  · simp [handleExit]
  · intro hsig
    have h := handleExit_restart_path g it RestartPolicy.unlessStopped c sig now s
      (by rintro ⟨-, hs⟩; exact hsig hs) (by intro h; cases h)
    exact ⟨h.1, h.2.1⟩
  · have h := handleExit_restart_path g it RestartPolicy.yes c sig now s
      (by rintro ⟨h, -⟩; cases h) (by intro h; cases h)
    exact ⟨h.1, h.2.1⟩

/--
C5, witness: a self-exit (code 0, no signal) of a worker under
`unless-stopped` on a fresh state schedules a restart; the same exit under
`no` leaves the state untouched.
-/
theorem claim5_witness :
    ((none : Option Str) ≠ some (strOf "SIGTERM"))
    ∧ handleExit (strOf "g") wItem RestartPolicy.no (some 0) none 1000 initState
        = initState
    ∧ (handleExit (strOf "g") wItem RestartPolicy.unlessStopped (some 0) none 1000
        initState).pending
      = initState.pending ++ [⟨strOf "g", wItem, RestartPolicy.unlessStopped⟩] := by
  have h := claim5_restart_policies initState (strOf "g") wItem (some 0) none 1000
  exact ⟨by decide, h.1, ((h.2.2.1 (by decide)).2 (by decide))⟩

/--
C6: `spawnGroup` on an already-tracked name fails with the descriptive error
`` `Group ${groupName} is already running` `` before any spawn (the model's
error result carries no state change, mirroring the code's check-then-act
order); on a fresh name it spawns exactly one process per item, registers the
group (so `isGroupRunning` becomes true and the status list has one entry per
item), and leaves every other group's tracking entry untouched.
-/
theorem claim6_duplicate_group (s : MState) (g : Str) (items : List ProcessItem)
    (p : RestartPolicy) :
    (isGroupRunning g s = true →
      spawnGroup g items p s
        = Except.error (strOf "Group " ++ g ++ strOf " is already running"))
    ∧ (isGroupRunning g s = false →
      ∃ s', spawnGroup g items p s = Except.ok s'
        ∧ isGroupRunning g s' = true
        ∧ (getGroupStatus g s').length = items.length
        ∧ s'.spawnLog = s.spawnLog ++ items.map (fun it => (g, it.name))
        ∧ ∀ g2, g2 ≠ g → getAssoc s'.groups g2 = getAssoc s.groups g2) := by
  constructor
  · intro h
    unfold spawnGroup
    rw [if_pos]
    exact h
  · intro h
    have hnone : getAssoc s.groups g = none := by
      cases hga : getAssoc s.groups g with
      | none => rfl
      | some v => rw [isGroupRunning, hga] at h; cases h
    refine ⟨{ (spawnItems g items s).2 with
        groups := (spawnItems g items s).2.groups ++ [(g, (spawnItems g items s).1)] },
      ?_, ?_, ?_, ?_, ?_⟩
    · unfold spawnGroup
      rw [if_neg]
      intro hc
      rw [isGroupRunning] at h
      rw [hc] at h
      cases h
    · rw [isGroupRunning]
      simp only
      rw [getAssoc_append_of_none _ _ _ (by rw [spawnItems_groups]; exact hnone)]
      rfl
    · rw [getGroupStatus]
      simp only
      rw [getAssoc_append_of_none _ _ _ (by rw [spawnItems_groups]; exact hnone)]
      simp [spawnItems_length]
    · simp [spawnItems_spawnLog]
    · intro g2 hg2
      simp only
      rw [getAssoc_append_ne _ _ _ _ hg2, spawnItems_groups]

/--
C6, witness: starting group `g` on a fresh manager succeeds with one process,
and starting it again on the resulting state fails with the descriptive error.
-/
theorem claim6_witness :
    (isGroupRunning (strOf "g") initState = false
      ∧ ∃ s', spawnGroup (strOf "g") [wItem] RestartPolicy.yes initState = Except.ok s'
          ∧ isGroupRunning (strOf "g") s' = true
          ∧ (getGroupStatus (strOf "g") s').length = [wItem].length
          ∧ s'.spawnLog = initState.spawnLog ++ [wItem].map (fun it => (strOf "g", it.name))
          ∧ ∀ g2, g2 ≠ strOf "g" → getAssoc s'.groups g2 = getAssoc initState.groups g2)
    ∧ (isGroupRunning (strOf "g") trStart = true
      ∧ spawnGroup (strOf "g") [wItem] RestartPolicy.yes trStart
          = Except.error (strOf "Group " ++ strOf "g" ++ strOf " is already running")) :=
  ⟨⟨by decide,
    (claim6_duplicate_group initState (strOf "g") [wItem] RestartPolicy.yes).2 (by decide)⟩,
   ⟨by decide,
    (claim6_duplicate_group trStart (strOf "g") [wItem] RestartPolicy.yes).1 (by decide)⟩⟩

/--
C10: for every reachable manager state, every status returned by
`getGroupStatus` is `'running'` (the stored status is never written after
construction), an untracked group yields `[]` rather than an error, exit
handling and restart firing leave the status list unchanged, `killGroup`
empties it, and a successful `spawnGroup` produces exactly one entry per item.
-/
theorem claim10_status_always_running (s : MState) (g : Str) (h : Reachable s) :
    (∀ st ∈ getGroupStatus g s, st = PStatus.running)
    ∧ (isGroupRunning g s = false → getGroupStatus g s = [])
    ∧ (∀ (g' : Str) (it : ProcessItem) (p : RestartPolicy) (c : Option Int)
        (sig : Option Str) (now : Int),
        getGroupStatus g (handleExit g' it p c sig now s) = getGroupStatus g s)
    ∧ (∀ t : PendingRestart, getGroupStatus g (timerFire t s) = getGroupStatus g s)
    ∧ getGroupStatus g (killGroup g s) = []
    ∧ (∀ (items : List ProcessItem) (p : RestartPolicy) (s' : MState),
        spawnGroup g items p s = Except.ok s' →
        (getGroupStatus g s').length = items.length) := by
  refine ⟨?_, ?_, ?_, ?_, killGroup_getGroupStatus_self g s, ?_⟩
  · intro st hst
    rw [getGroupStatus] at hst
    cases hga : getAssoc s.groups g with
    | none => rw [hga] at hst; cases hst
    | some procs =>
      rw [hga] at hst
      simp only [Option.getD_some, List.mem_map] at hst
      obtain ⟨mp, hmp, he⟩ := hst
      rw [← he]
      exact reachable_all_running h (g, procs) (getAssoc_mem hga) mp hmp
  · intro hF
    rw [getGroupStatus]
    cases hga : getAssoc s.groups g with
    | none => rfl
    | some procs => rw [isGroupRunning, hga] at hF; cases hF
  · intro g' it p c sig now
    rw [getGroupStatus, getGroupStatus, handleExit_groups]
  · intro t
    exact timerFire_getGroupStatus g t s
  · intro items p s' hok
    unfold spawnGroup at hok
    by_cases hdup : (getAssoc s.groups g).isSome
    · rw [if_pos hdup] at hok
      cases hok
    · rw [if_neg hdup] at hok
      simp only [Except.ok.injEq] at hok
      have hnone : getAssoc s.groups g = none := by
        cases hga : getAssoc s.groups g with
        | none => rfl
        | some v => rw [hga] at hdup; exact absurd rfl hdup
      rw [← hok, getGroupStatus]
      simp only
      rw [getAssoc_append_of_none _ _ _ (by rw [spawnItems_groups]; exact hnone)]
      simp [spawnItems_length]

/--
C10, witness: in the reachable state where group `g` was spawned with one
item, the status list is `['running']` and the conjuncts hold.
-/
theorem claim10_witness :
    (∀ st ∈ getGroupStatus (strOf "g") trStart, st = PStatus.running)
    ∧ (isGroupRunning (strOf "g") trStart = false →
        getGroupStatus (strOf "g") trStart = [])
    ∧ (∀ (g' : Str) (it : ProcessItem) (p : RestartPolicy) (c : Option Int)
        (sig : Option Str) (now : Int),
        getGroupStatus (strOf "g") (handleExit g' it p c sig now trStart)
          = getGroupStatus (strOf "g") trStart)
    ∧ (∀ t : PendingRestart,
        getGroupStatus (strOf "g") (timerFire t trStart)
          = getGroupStatus (strOf "g") trStart)
    ∧ getGroupStatus (strOf "g") (killGroup (strOf "g") trStart) = []
    ∧ (∀ (items : List ProcessItem) (p : RestartPolicy) (s' : MState),
        spawnGroup (strOf "g") items p trStart = Except.ok s' →
        (getGroupStatus (strOf "g") s').length = items.length) :=
  claim10_status_always_running trStart (strOf "g")
    (@Reachable.spawn initState trStart (strOf "g") [wItem] RestartPolicy.yes
      Reachable.init rfl)

/-!
## Lemmas about registry file names
-/

theorem split_first_underscore :
    ∀ (a1 a2 b1 b2 : Str), '_' ∉ a1 → '_' ∉ a2 →
      a1 ++ '_' :: b1 = a2 ++ '_' :: b2 → a1 = a2 ∧ b1 = b2 := by
  intro a1
  induction a1 with
  | nil =>
    intro a2 b1 b2 _ h2 he
    cases a2 with
    | nil => simpa using he
    | cons c rest =>
      simp only [List.nil_append, List.cons_append, List.cons.injEq] at he
      exact absurd (he.1 ▸ List.mem_cons_self c rest) h2
  | cons c rest ih =>
    intro a2 b1 b2 h1 h2 he
    cases a2 with
    | nil =>
      simp only [List.cons_append, List.nil_append, List.cons.injEq] at he
      exact absurd (he.1 ▸ List.mem_cons_self c rest) h1
    | cons c2 rest2 =>
      simp only [List.cons_append, List.cons.injEq] at he
      obtain ⟨hc, he'⟩ := he
      obtain ⟨ha, hb⟩ := ih rest2 b1 b2
        (fun hm => h1 (List.mem_cons_of_mem _ hm))
        (fun hm => h2 (List.mem_cons_of_mem _ hm)) he'
      exact ⟨by rw [hc, ha], hb⟩

theorem underscore_prefix_group (g1 g2 t : Str) (h1 : '_' ∉ g1) (h2 : '_' ∉ g2)
    (h : (g1 ++ ['_']) <+: (g2 ++ '_' :: t)) : g1 = g2 := by
  obtain ⟨u, hu⟩ := h
  rw [List.append_assoc, List.singleton_append] at hu
  exact (split_first_underscore g1 g2 u t h1 h2 hu).1

/-!
## Claim C7
-/

/--
C7, counterexample: the claim asserts the registry file name is an injective
function of `(groupName, itemName)` and that enumerating by a group's prefix
never returns another group's entry.  The name `` `${g}_${i}.pid` `` collides
on `('a_b','c')` and `('a','b_c')`, and an entry written for group `a_b`
is returned by `readPidsByGroup('a')`.
-/
theorem claim7_counterexample :
    getPidFilePath (strOf "a_b") (strOf "c") = getPidFilePath (strOf "a") (strOf "b_c")
    ∧ (strOf "a_b", strOf "c") ≠ (strOf "a", strOf "b_c")
    ∧ readPidsByGroup (writePid [] colEntry) (strOf "a") = [colEntry]
    ∧ colEntry.groupName ≠ strOf "a" := by
  exact ⟨by decide, by decide, by decide, by decide⟩

/--
C7, amended: the file name is deterministic, and it is collision-free and
prefix-enumeration returns only the queried group's entries provided group
names contain no underscore; with underscores in group names distinct pairs
can collide and prefix enumeration can capture a foreign group's entry, as
the counterexample shows.
-/
theorem claim7_injective_without_underscore (g1 i1 g2 i2 : Str)
    (h1 : '_' ∉ g1) (h2 : '_' ∉ g2) :
    (getPidFilePath g1 i1 = getPidFilePath g2 i2 ↔ (g1 = g2 ∧ i1 = i2))
    ∧ ((g1 ++ ['_']).isPrefixOf (getPidFilePath g2 i2) = true → g1 = g2) := by
  constructor
  · constructor
    · intro he
      unfold getPidFilePath at he
      obtain ⟨hg, hi⟩ := split_first_underscore g1 g2 _ _ h1 h2 he
      exact ⟨hg, List.append_cancel_right hi⟩
    · rintro ⟨rfl, rfl⟩
      rfl
  · intro hp
    rw [List.isPrefixOf_iff_prefix] at hp
    exact underscore_prefix_group g1 g2 _ h1 h2 hp

/--
C7, witness: for underscore-free group names `web` and `api` the file names
of distinct pairs differ and the prefix test identifies the group.
-/
theorem claim7_witness :
    ('_' ∉ strOf "web") ∧ ('_' ∉ strOf "api")
    ∧ ((getPidFilePath (strOf "web") (strOf "s1") = getPidFilePath (strOf "api") (strOf "s2")
          ↔ (strOf "web" = strOf "api" ∧ strOf "s1" = strOf "s2"))
      ∧ ((strOf "web" ++ ['_']).isPrefixOf
            (getPidFilePath (strOf "api") (strOf "s2")) = true →
          strOf "web" = strOf "api")) :=
  ⟨by decide, by decide,
    claim7_injective_without_underscore (strOf "web") (strOf "s1") (strOf "api")
      (strOf "s2") (by decide) (by decide)⟩

/-!
## Lemmas about the registry store
-/

theorem mem_setFile (dir : PidDir) (k : Str) (v : PidEntry) : (k, v) ∈ setFile dir k v := by
  induction dir with
  | nil => exact List.mem_cons_self _ _
  | cons f rest ih =>
    by_cases h : f.1 = k
    · simp only [setFile, if_pos h]
      exact List.mem_cons_self _ _
    · simp only [setFile, if_neg h]
      exact List.mem_cons_of_mem _ ih

theorem pidPath_isPrefixOf (g i : Str) :
    (g ++ ['_']).isPrefixOf (getPidFilePath g i) = true := by
  rw [List.isPrefixOf_iff_prefix]
  show g ++ ['_'] <+: g ++ '_' :: (i ++ strOf ".pid")
  have he : g ++ '_' :: (i ++ strOf ".pid") = (g ++ ['_']) ++ (i ++ strOf ".pid") := by
    simp
  rw [he]
  exact List.prefix_append _ _

theorem pidPath_isSuffixOf (g i : Str) :
    (strOf ".pid").isSuffixOf (getPidFilePath g i) = true := by
  rw [List.isSuffixOf_iff_suffix]
  show strOf ".pid" <:+ g ++ '_' :: (i ++ strOf ".pid")
  have h1 : strOf ".pid" <:+ i ++ strOf ".pid" := List.suffix_append _ _
  have h2 : i ++ strOf ".pid" <:+ '_' :: (i ++ strOf ".pid") := by
    rw [show '_' :: (i ++ strOf ".pid") = ['_'] ++ (i ++ strOf ".pid") from rfl]
    exact List.suffix_append _ _
  exact (h1.trans h2).trans (List.suffix_append _ _)

theorem foldl_deletePid (L : List PidEntry) :
    ∀ (d : PidDir),
      L.foldl (fun d e => deletePid d e.groupName e.itemName) d
        = d.filter (fun f =>
            L.all (fun e => f.1 ≠ getPidFilePath e.groupName e.itemName)) := by
  induction L with
  | nil =>
    intro d
    simp [List.all_nil]
  | cons e L ih =>
    intro d
    simp only [List.foldl_cons]
    rw [ih]
    unfold deletePid
    rw [List.filter_filter]
    apply List.filter_congr
    intro f _
    rw [List.all_cons, Bool.and_comm]

theorem key_unique_of_nodup :
    ∀ (dir : PidDir), (dir.map (fun f => f.1)).Nodup →
      ∀ (f f' : Str × PidEntry), f ∈ dir → f' ∈ dir → f.1 = f'.1 → f = f' := by
  intro dir
  induction dir with
  | nil => intro _ f f' h1; cases h1
  | cons g rest ih =>
    intro hnd f f' h1 h2 he
    rw [List.map_cons, List.nodup_cons] at hnd
    rcases List.mem_cons.mp h1 with h1' | h1' <;> rcases List.mem_cons.mp h2 with h2' | h2'
    · rw [h1', h2']
    · exfalso
      apply hnd.1
      have hg : g.1 = f'.1 := by rw [← h1', he]
      rw [hg]
      exact List.mem_map_of_mem _ h2'
    · exfalso
      apply hnd.1
      have hg : g.1 = f.1 := by rw [← h2', ← he]
      rw [hg]
      exact List.mem_map_of_mem _ h1'
    · exact ih hnd.2 f f' h1' h2' he

theorem cleanup_dir_spec (alive : Nat → Bool) (now : Int) (dir : PidDir)
    (hw : ∀ f ∈ dir, f.1 = getPidFilePath f.2.groupName f.2.itemName)
    (hnd : (dir.map (fun f => f.1)).Nodup) :
    (cleanupStalePids alive now dir).2
      = dir.filter (fun f => isPidEntryValid alive now f.2) := by
  unfold cleanupStalePids
  simp only
  rw [foldl_deletePid]
  apply List.filter_congr
  intro f hmem
  have hpath := hw f hmem
  cases hv : isPidEntryValid alive now f.2 with
  | true =>
    rw [List.all_eq_true]
    intro e he
    rw [List.mem_filter] at he
    obtain ⟨heAll, heInv⟩ := he
    rw [decide_eq_true_eq]
    intro hfe
    obtain ⟨f', hf', he2⟩ := List.mem_map.mp heAll
    rw [List.mem_filter] at hf'
    have hpath' := hw f' hf'.1
    have hkey : f.1 = f'.1 := by rw [hfe, ← he2, ← hpath']
    have hff : f = f' := key_unique_of_nodup dir hnd f f' hmem hf'.1 hkey
    rw [Bool.not_eq_true'] at heInv
    rw [← he2, ← hff, hv] at heInv
    cases heInv
  | false =>
    rw [List.all_eq_false]
    refine ⟨f.2, ?_, ?_⟩
    · rw [List.mem_filter]
      constructor
      · apply List.mem_map.mpr
        refine ⟨f, ?_, rfl⟩
        rw [List.mem_filter]
        refine ⟨hmem, ?_⟩
        rw [hpath]
        exact pidPath_isSuffixOf _ _
      · rw [Bool.not_eq_true', hv]
    · intro hd
      exact (of_decide_eq_true hd) hpath

theorem readAllPids_filter_valid (alive : Nat → Bool) (now : Int) (dir : PidDir) :
    readAllPids (dir.filter (fun f => isPidEntryValid alive now f.2))
      = (readAllPids dir).filter (fun x => isPidEntryValid alive now x) := by
  unfold readAllPids
  rw [List.filter_map, List.filter_filter, List.filter_filter]
  congr 1
  apply List.filter_congr
  intro f _
  simp [Function.comp, Bool.and_comm]

/-!
## Claim C8
-/

/--
C8: after `writePid(e)`, `readPidsByGroup(e.groupName)` returns an entry all
of whose fields equal those of `e` (the written entry itself is a member of
the result); and for a directory whose file names are the ones `writePid`
produces (names match contents, no duplicate names), `cleanupStalePids`
returns exactly the entries failing `isPidEntryValid` (PID not alive, or
start time not within the last 5 minutes), deletes exactly their files, and
leaves every valid entry untouched.
-/
theorem claim8_registry_roundtrip (dir : PidDir) (e : PidEntry) (alive : Nat → Bool)
    (now : Int)
    (hw : ∀ f ∈ dir, f.1 = getPidFilePath f.2.groupName f.2.itemName)
    (hnd : (dir.map (fun f => f.1)).Nodup) :
    e ∈ readPidsByGroup (writePid dir e) e.groupName
    ∧ (cleanupStalePids alive now dir).1
        = (readAllPids dir).filter (fun x => !(isPidEntryValid alive now x))
    ∧ (cleanupStalePids alive now dir).2
        = dir.filter (fun f => isPidEntryValid alive now f.2)
    ∧ readAllPids (cleanupStalePids alive now dir).2
        = (readAllPids dir).filter (fun x => isPidEntryValid alive now x) := by
  refine ⟨?_, rfl, cleanup_dir_spec alive now dir hw hnd, ?_⟩
  · unfold readPidsByGroup writePid
    apply List.mem_map.mpr
    refine ⟨(getPidFilePath e.groupName e.itemName, e), ?_, rfl⟩
    apply List.mem_filter.mpr
    constructor
    · exact mem_setFile dir _ e
    · rw [Bool.and_eq_true]
      exact ⟨pidPath_isPrefixOf _ _, pidPath_isSuffixOf _ _⟩
  · rw [cleanup_dir_spec alive now dir hw hnd]
    exact readAllPids_filter_valid alive now dir

/--
C8, witness: on the two-entry sample directory (PID 1 alive and recent,
PID 2 dead) the round trip holds and cleanup removes exactly the dead entry.
-/
theorem claim8_witness :
    (∀ f ∈ sampleDir, f.1 = getPidFilePath f.2.groupName f.2.itemName)
    ∧ (sampleDir.map (fun f => f.1)).Nodup
    ∧ (validEntry ∈ readPidsByGroup (writePid sampleDir validEntry) validEntry.groupName
      ∧ (cleanupStalePids sampleAlive 1000000 sampleDir).1
          = (readAllPids sampleDir).filter
              (fun x => !(isPidEntryValid sampleAlive 1000000 x))
      ∧ (cleanupStalePids sampleAlive 1000000 sampleDir).2
          = sampleDir.filter (fun f => isPidEntryValid sampleAlive 1000000 f.2)
      ∧ readAllPids (cleanupStalePids sampleAlive 1000000 sampleDir).2
          = (readAllPids sampleDir).filter
              (fun x => isPidEntryValid sampleAlive 1000000 x)) :=
  ⟨by decide, by decide,
    claim8_registry_roundtrip sampleDir validEntry sampleAlive 1000000
      (by decide) (by decide)⟩

/-!
## Lemmas about line splitting
-/

theorem splitChar_ne_nil (sep : Char) : ∀ (s : Str), splitChar sep s ≠ [] := by
  intro s
  induction s with
  | nil => simp [splitChar]
  | cons c rest ih =>
    by_cases hc : c = sep
    · simp [splitChar, hc]
    · simp only [splitChar, if_neg hc]
      cases hsp : splitChar sep rest with
      | nil => exact absurd hsp ih
      | cons g gs => simp

theorem splitChar_append_no_sep (sep : Char) :
    ∀ (a b : Str), sep ∉ a →
      splitChar sep (a ++ b)
        = (a ++ (splitChar sep b).headD []) :: (splitChar sep b).tail := by
  intro a
  induction a with
  | nil =>
    intro b _
    simp only [List.nil_append]
    cases hsp : splitChar sep b with
    | nil => exact absurd hsp (splitChar_ne_nil sep b)
    | cons g gs => simp
  | cons c a' ih =>
    intro b hmem
    have hc : c ≠ sep := fun h => hmem (h ▸ List.mem_cons_self _ _)
    simp only [List.cons_append, splitChar, if_neg hc, List.append_eq]
    rw [ih b (fun h => hmem (List.mem_cons_of_mem _ h))]

/-!
## Claim C9
-/

/--
C9, counterexample: the claim says the `[itemName] ` prefix is applied
line-by-line, every line of a multi-line chunk beginning with the prefix.
The handler writes `` `[${item.name}] ${data}` `` — one prefix per chunk —
so of the chunk `"a\nb"` only the first emitted line is prefixed and the
second line `"b"` is passed through raw.
-/
theorem claim9_counterexample :
    linesOf (emitChunk (strOf "x") (strOf "a\nb")) = [strOf "[x] a", strOf "b"]
    ∧ ((strOf "[x] ").isPrefixOf (strOf "b")) = false := by
  exact ⟨by decide, by decide⟩

/--
C9, amended: each chunk is re-emitted with `[itemName] ` prepended once per
chunk, not per line: the emitted text is the prefix followed by the raw
chunk, so the first line of each chunk carries the prefix and the remaining
lines of a multi-line chunk are passed through unchanged.
-/
theorem claim9_chunk_prefix (name data : Str) (h : '\n' ∉ name) :
    emitChunk name data = ('[' :: (name ++ [']', ' '])) ++ data
    ∧ linesOf (emitChunk name data)
        = (('[' :: (name ++ [']', ' '])) ++ (linesOf data).headD [])
            :: (linesOf data).tail := by
  have he : emitChunk name data = ('[' :: (name ++ [']', ' '])) ++ data := by
    simp [emitChunk]
  refine ⟨he, ?_⟩
  rw [he]
  unfold linesOf
  apply splitChar_append_no_sep
  intro hm
  rcases List.mem_cons.mp hm with h1 | h1
  · exact absurd h1 (by decide)
  · rcases List.mem_append.mp h1 with h2 | h2
    · exact h h2
    · exact absurd h2 (by decide)

/--
C9, witness: for item `x` and the two-line chunk `a\nb` the emitted chunk is
the prefix followed by the raw data, and only the first line is prefixed.
-/
theorem claim9_witness :
    ('\n' ∉ strOf "x")
    ∧ (emitChunk (strOf "x") (strOf "a\nb")
          = ('[' :: (strOf "x" ++ [']', ' '])) ++ strOf "a\nb"
      ∧ linesOf (emitChunk (strOf "x") (strOf "a\nb"))
          = (('[' :: (strOf "x" ++ [']', ' '])) ++ (linesOf (strOf "a\nb")).headD [])
              :: (linesOf (strOf "a\nb")).tail) :=
  ⟨by decide, claim9_chunk_prefix (strOf "x") (strOf "a\nb") (by decide)⟩

end EasyCli
